import Mathlib

/-!
Shallow embedding of the File Processor app (`src/app.py`): the session
registry of uploaded files (lines 49, 72-108, 159-161 of `app.py`) and the
per-file table operations of the cleaning/export pipeline (lines 122-157).
Machine-level concerns (byte buffers, widget reruns) are abstracted; the
pandas calls the handlers make are embedded by their documented semantics
on an explicit table datatype.
-/

/-- A table cell: missing (pandas `NaN`), a numeric value, or a string value.
Numeric-dtype columns hold only `num`/`missing` cells; an object-dtype column
is one containing at least one `str` cell. -/
inductive Cell where
  | missing
  | num (q : ℚ)
  | str (s : String)
deriving DecidableEq

abbrev Row := List Cell

/-- A parsed table (`pandas.DataFrame`): named columns plus row-major data. -/
structure Table where
  colNames : List String
  rows : List Row
deriving DecidableEq

/-- The cells present in column `j` (a row shorter than `j + 1` contributes
nothing). -/
def colCells (t : Table) (j : ℕ) : List Cell :=
  t.rows.filterMap (fun r => r[j]?)

def Cell.isStr : Cell → Bool
  | Cell.str _ => true
  | _ => false

def Cell.toNum : Cell → Option ℚ
  | Cell.num q => some q
  | _ => none

/-- `df.select_dtypes(include='number')` membership: a column is numeric iff
none of its cells is a string. -/
def isNumericCol (t : Table) (j : ℕ) : Bool :=
  (colCells t j).all (fun c => !c.isStr)

/-- The non-missing numeric values of column `j`. -/
def numVals (t : Table) (j : ℕ) : List ℚ :=
  (colCells t j).filterMap Cell.toNum

/-- Column mean as `df[numeric_cols].mean()` computes it (missing skipped). -/
def colMean (t : Table) (j : ℕ) : ℚ :=
  (numVals t j).sum / ((numVals t j).length : ℚ)

/-- Effect of `fillna(df[numeric_cols].mean())` on one cell of column `j`:
a missing cell of a numeric column that has at least one non-missing value
becomes the column mean.  Over an all-missing numeric column the mean is NaN
and `fillna` with NaN leaves the cell missing; non-numeric columns are not
part of `numeric_cols` and are untouched. -/
def fillCell (t : Table) (j : ℕ) (c : Cell) : Cell :=
  match c with
  | Cell.missing =>
      if isNumericCol t j = true ∧ 0 < (numVals t j).length then
        Cell.num (colMean t j)
      else Cell.missing
  | c => c

def fillRow (t : Table) (j : ℕ) : Row → Row
  | [] => []
  | c :: cs => fillCell t j c :: fillRow t (j + 1) cs

/-- Lines 127-131 of `app.py`:
`df[numeric_cols] = df[numeric_cols].fillna(df[numeric_cols].mean())`. -/
def fillMissingNumeric (t : Table) : Table :=
  Table.mk t.colNames (t.rows.map (fillRow t 0))

/-- Recursion underlying `df.drop_duplicates()` with the default
`keep='first'`: `seen` is the set of row values already emitted. -/
def dropDupAux (seen : List Row) : List Row → List Row
  | [] => []
  | r :: rs => if r ∈ seen then dropDupAux seen rs else r :: dropDupAux (r :: seen) rs

/-- Lines 122-124 of `app.py`: `df = df.drop_duplicates()`. -/
def dropDuplicateRows (t : Table) : Table :=
  Table.mk t.colNames (dropDupAux [] t.rows)

/-- Specification-side restatement of deduplication, following the spec text
"removes rows that are fully identical to an earlier row": `earlier` holds
every row already passed over, whether it was kept or removed. -/
def keepNotSeenBefore (earlier : List Row) : List Row → List Row
  | [] => []
  | r :: rs =>
      if r ∈ earlier then keepNotSeenBefore (earlier ++ [r]) rs
      else r :: keepNotSeenBefore (earlier ++ [r]) rs

/-- Index of the first column named `n` (pandas label lookup). -/
def colIdx (ns : List String) (n : String) : ℕ :=
  match ns with
  | [] => 0
  | m :: tl => if m = n then 0 else colIdx tl n + 1

/-- Lines 133-134 of `app.py`: `df = df[selected_columns]`.  pandas raises
`KeyError` when a requested label is absent; the embedding returns `none`
in that case and a projected table otherwise. -/
def selectColumns (t : Table) (names : List String) : Option Table :=
  if ∀ n ∈ names, n ∈ t.colNames then
    some (Table.mk names
      (t.rows.map (fun r => names.map (fun n => r.getD (colIdx t.colNames n) Cell.missing))))
  else none

/-- The cell of `t` at row `i`, column `j`, when both exist. -/
def cellAt (t : Table) (i j : ℕ) : Option Cell :=
  (t.rows[i]?).bind (fun r => r[j]?)

/-- Per-file state, the dict literal of lines 75-77 of `app.py`. -/
structure FileRecord where
  df : Option Table
  cleaned : Bool
  converted : Bool
  to_delete : Bool
  original_name : String
deriving DecidableEq

/-- Outcome of running one of the pandas readers on a file's bytes: a parsed
table, or a raised exception carrying a message. -/
inductive ParseOutcome where
  | ok (t : Table)
  | raised (msg : String)
deriving DecidableEq

/-- An uploaded file: its name, byte size, and the outcome each reader
(`pd.read_csv` / `pd.read_excel`) would produce on its bytes. -/
structure UploadedFile where
  name : String
  size : ℕ
  csvParse : ParseOutcome
  xlsxParse : ParseOutcome
deriving DecidableEq

/-- Line 73 of `app.py`: `file_id = f"{file.name}_{file.size}"`. -/
def fileId (f : UploadedFile) : String :=
  f.name ++ "_" ++ toString f.size

/-- Python's `str.endswith`, on the character lists of the strings. -/
def strEndsWith (s suf : String) : Bool :=
  decide (s.data.drop (s.data.length - suf.data.length) = suf.data)

/-- The suffix dispatch of lines 79-83 of `app.py`.  When the name ends in
neither `.csv` nor `.xlsx`, no branch assigns the local `df`, so the read of
`df` on line 83 raises `UnboundLocalError`; that exception is caught by the
same `except Exception` clause as a reader failure. -/
def dispatchParse (f : UploadedFile) : ParseOutcome :=
  if strEndsWith f.name ".csv" then f.csvParse
  else if strEndsWith f.name ".xlsx" then f.xlsxParse
  else ParseOutcome.raised "local variable df referenced before assignment"

/-- The fresh record inserted on lines 75-77 of `app.py`. -/
def freshRecord (f : UploadedFile) : FileRecord :=
  FileRecord.mk none false false false f.name

/-- The session registry `st.session_state.processed_files`: an
insertion-ordered map from file id to record, as a Python dict is. -/
abbrev Registry := List (String × FileRecord)

/-- Dict key lookup `reg[id]` / `id in reg` (first matching key). -/
def findRec : Registry → String → Option FileRecord
  | [], _ => none
  | (k, v) :: tl, id => if k = id then some v else findRec tl id

def keys (reg : Registry) : List String :=
  reg.map Prod.fst

/-- Lines 72-86 of `app.py` (`process_file`): if the identity is already
registered, nothing happens; otherwise a fresh record is inserted and the
parse attempted, a success storing the table and a raised exception marking
the record for deletion and surfacing an error message (the second
component; `none` means no `st.error` call). -/
def process_file (reg : Registry) (f : UploadedFile) : Registry × Option String :=
  if (findRec reg (fileId f)).isSome then (reg, none)
  else
    match dispatchParse f with
    | ParseOutcome.ok t =>
        (reg ++ [(fileId f, { freshRecord f with df := some t })], none)
    | ParseOutcome.raised m =>
        (reg ++ [(fileId f, { freshRecord f with to_delete := true })],
         some ("❌ Error loading " ++ f.name ++ ": " ++ m))

/-- Dict value update at one key. -/
def updateRec : Registry → String → (FileRecord → FileRecord) → Registry
  | [], _, _ => []
  | (k, v) :: tl, id, g => (if k = id then (k, g v) else (k, v)) :: updateRec tl id g

/-- Lines 106-107 of `app.py`: the Delete button sets `to_delete`. -/
def markDeleted (reg : Registry) (id : String) : Registry :=
  updateRec reg id (fun r => { r with to_delete := true })

/-- Lines 95-99 and 159-161 of `app.py`: records flagged `to_delete` are
skipped by the display loop, collected, and deleted after it. -/
def sweep (reg : Registry) : Registry :=
  reg.filter (fun p => !p.2.to_delete)

/-- Outcome of a serialization call (`df.to_csv` / `df.to_excel`). -/
inductive SerializeOutcome where
  | ok (data : List ℕ)
  | raised (msg : String)
deriving DecidableEq

/-- The radio choice of line 142 of `app.py`. -/
inductive ConvFormat where
  | csv
  | excel
deriving DecidableEq

/-- Lines 144-157 of `app.py`: the Convert button serializes the current
table; success sets the `converted` flag, a raised exception is caught and
reported (second component) leaving the record untouched. -/
def convertClick (ser : ConvFormat → Table → SerializeOutcome) (fmt : ConvFormat)
    (rec : FileRecord) (t : Table) : FileRecord × Option String :=
  match ser fmt t with
  | SerializeOutcome.ok _ => ({ rec with converted := true }, none)
  | SerializeOutcome.raised m => (rec, some ("⚠️ Conversion failed: " ++ m))

/-- Lines 133-135 of `app.py` as a record update: a `KeyError` raised by
`df[selected_columns]` propagates before the store on line 135 runs, so the
stored table is unchanged. -/
def selectClick (rec : FileRecord) (t : Table) (names : List String) : FileRecord :=
  match selectColumns t names with
  | some t2 => { rec with df := some t2 }
  | none => rec

/-- The worked table of the spec's scenario: columns `[x, y, z]`, rows
`[[1, missing, 3], [1, 2, 3]]`. -/
def sampleT : Table :=
  Table.mk ["x", "y", "z"]
    [[Cell.num 1, Cell.missing, Cell.num 3], [Cell.num 1, Cell.num 2, Cell.num 3]]

def fileA : UploadedFile :=
  UploadedFile.mk "a.csv" 5 (ParseOutcome.ok sampleT) (ParseOutcome.ok sampleT)

def fileBad : UploadedFile :=
  UploadedFile.mk "b.csv" 7 (ParseOutcome.raised "boom") (ParseOutcome.ok sampleT)

def txtFile : UploadedFile :=
  UploadedFile.mk "notes.txt" 3 (ParseOutcome.ok sampleT) (ParseOutcome.ok sampleT)

/-- A table with a non-numeric column (`name`) and a numeric one (`score`). -/
def sampleT2 : Table :=
  Table.mk ["name", "score"]
    [[Cell.str "ann", Cell.num 1], [Cell.missing, Cell.missing], [Cell.str "bob", Cell.num 3]]

/-- A serializer that always raises, for exercising the export failure path. -/
def serFail : ConvFormat → Table → SerializeOutcome :=
  fun _ _ => SerializeOutcome.raised "disk full"

def recA : FileRecord :=
  FileRecord.mk (some sampleT) false false false "a.csv"

def recDel : FileRecord :=
  FileRecord.mk none false false true "a.csv"

/-! ## Helper lemmas -/

theorem mem_dropDupAux {x : Row} {seen : List Row} {l : List Row} :
    x ∈ dropDupAux seen l ↔ x ∈ l ∧ x ∉ seen := by
  induction l generalizing seen with
  | nil => simp [dropDupAux]
  | cons r rs ih =>
    by_cases hr : r ∈ seen
    · simp only [dropDupAux, if_pos hr, ih, List.mem_cons]
      constructor
      · rintro ⟨hx, hxs⟩
        exact ⟨Or.inr hx, hxs⟩
      · rintro ⟨hx | hx, hxs⟩
        · exact absurd (hx ▸ hr) hxs
        · exact ⟨hx, hxs⟩
    · simp only [dropDupAux, if_neg hr, List.mem_cons, ih, List.mem_cons]
      constructor
      · rintro (rfl | ⟨hx, hxs⟩)
        · exact ⟨Or.inl rfl, hr⟩
        · exact ⟨Or.inr hx, fun hc => hxs (Or.inr hc)⟩
      · rintro ⟨rfl | hx, hxs⟩
        · exact Or.inl rfl
        · by_cases hxr : x = r
          · exact Or.inl hxr
          · exact Or.inr ⟨hx, fun hc => (hxr (hc.resolve_right hxs ▸ rfl))⟩

theorem nodup_dropDupAux (seen : List Row) (l : List Row) :
    (dropDupAux seen l).Nodup := by
  induction l generalizing seen with
  | nil => simp [dropDupAux]
  | cons r rs ih =>
    by_cases hr : r ∈ seen
    · simpa [dropDupAux, if_pos hr] using ih seen
    · rw [dropDupAux, if_neg hr]
      refine List.Nodup.cons ?_ (ih (r :: seen))
      intro hmem
      exact (mem_dropDupAux.mp hmem).2 (List.mem_cons_self r seen)

theorem dropDupAux_sublist (seen : List Row) (l : List Row) :
    List.Sublist (dropDupAux seen l) l := by
  induction l generalizing seen with
  | nil => simp [dropDupAux]
  | cons r rs ih =>
    by_cases hr : r ∈ seen
    · simpa [dropDupAux, if_pos hr] using List.Sublist.cons r (ih seen)
    · simpa [dropDupAux, if_neg hr] using List.Sublist.cons₂ r (ih (r :: seen))

theorem dropDupAux_eq_keepNotSeenBefore (l : List Row) (seen earlier : List Row)
    (h : ∀ x : Row, x ∈ seen ↔ x ∈ earlier) :
    dropDupAux seen l = keepNotSeenBefore earlier l := by
  induction l generalizing seen earlier with
  | nil => rfl
  | cons r rs ih =>
    by_cases hr : r ∈ seen
    · have hr2 : r ∈ earlier := (h r).mp hr
      rw [dropDupAux, if_pos hr, keepNotSeenBefore, if_pos hr2]
      refine ih seen (earlier ++ [r]) ?_
      intro x
      rw [List.mem_append, List.mem_singleton]
      constructor
      · intro hx
        exact Or.inl ((h x).mp hx)
      · rintro (hx | rfl)
        · exact (h x).mpr hx
        · exact hr
    · have hr2 : r ∉ earlier := fun hc => hr ((h r).mpr hc)
      rw [dropDupAux, if_neg hr, keepNotSeenBefore, if_neg hr2]
      refine congrArg (r :: ·) (ih (r :: seen) (earlier ++ [r]) ?_)
      intro x
      rw [List.mem_cons, List.mem_append, List.mem_singleton]
      constructor
      · rintro (rfl | hx)
        · exact Or.inr rfl
        · exact Or.inl ((h x).mp hx)
      · rintro (hx | rfl)
        · exact Or.inr ((h x).mpr hx)
        · exact Or.inl rfl

theorem dropDupAux_of_nodup :
    ∀ l seen : List Row, l.Nodup → (∀ x ∈ l, x ∉ seen) → dropDupAux seen l = l := by
  intro l
  induction l with
  | nil => intro seen _ _; rfl
  | cons r rs ih =>
    intro seen hnd hs
    have hr : r ∉ seen := hs r (List.mem_cons_self r rs)
    rw [dropDupAux, if_neg hr]
    have hs2 : ∀ x ∈ rs, x ∉ (r :: seen) := by
      intro x hx hc
      rcases List.mem_cons.mp hc with rfl | hcs
      · exact (List.nodup_cons.mp hnd).1 hx
      · exact hs x (List.mem_cons_of_mem r hx) hcs
    exact congrArg (r :: ·) (ih (r :: seen) hnd.of_cons hs2)


theorem fillRow_length (t : Table) : ∀ (j : ℕ) (r : Row), (fillRow t j r).length = r.length := by
  intro j r
  induction r generalizing j with
  | nil => rfl
  | cons c cs ih => simp [fillRow, ih]

theorem fillRow_getElem (t : Table) :
    ∀ (r : Row) (k i : ℕ), (fillRow t k r)[i]? = (r[i]?).map (fillCell t (k + i)) := by
  intro r
  induction r with
  | nil => intro k i; simp [fillRow]
  | cons c cs ih =>
    intro k i
    cases i with
    | zero => simp [fillRow]
    | succ n =>
      have harith : k + 1 + n = k + (n + 1) := by omega
      simp only [fillRow, List.getElem?_cons_succ, ih (k + 1) n, harith]

theorem cellAt_fill (t : Table) (i j : ℕ) :
    cellAt (fillMissingNumeric t) i j = (cellAt t i j).map (fillCell t j) := by
  unfold cellAt fillMissingNumeric
  rw [List.getElem?_map]
  cases hrow : t.rows[i]? with
  | none => rfl
  | some r =>
    simp only [Option.map_some', Option.bind_some, Option.some_bind]
    rw [fillRow_getElem t r 0 j, Nat.zero_add]

theorem findRec_eq_none_iff (reg : Registry) (id : String) :
    findRec reg id = none ↔ id ∉ keys reg := by
  induction reg with
  | nil => simp [findRec, keys]
  | cons p tl ih =>
    obtain ⟨k, v⟩ := p
    by_cases h : k = id
    · subst h
      simp [findRec, keys]
    · simp only [findRec, if_neg h, keys, List.map_cons, List.mem_cons, ih, keys]
      constructor
      · rintro hx (rfl | hmem)
        · exact h rfl
        · exact hx hmem
      · intro hx hmem
        exact hx (Or.inr hmem)

theorem findRec_append_none {reg : Registry} {id : String} (h : findRec reg id = none)
    (reg2 : Registry) : findRec (reg ++ reg2) id = findRec reg2 id := by
  induction reg with
  | nil => rfl
  | cons p tl ih =>
    obtain ⟨k, v⟩ := p
    by_cases hk : k = id
    · rw [findRec, if_pos hk] at h
      exact absurd h (by simp)
    · rw [findRec, if_neg hk] at h
      rw [List.cons_append, findRec, if_neg hk]
      exact ih h

theorem keys_sweep_subset (reg : Registry) : keys (sweep reg) ⊆ keys reg := by
  unfold keys sweep
  exact ((List.filter_sublist reg).map Prod.fst).subset

theorem findRec_sweep :
    ∀ (reg : Registry) (id : String) (rcd : FileRecord), (keys reg).Nodup →
      findRec reg id = some rcd →
      findRec (sweep reg) id = if rcd.to_delete then none else some rcd := by
  intro reg
  induction reg with
  | nil => intro id rcd _ h; simp [findRec] at h
  | cons p tl ih =>
    intro id rcd hnd h
    obtain ⟨k, v⟩ := p
    have hnd2 : k ∉ keys tl ∧ (keys tl).Nodup := by
      simpa [keys, List.nodup_cons] using hnd
    by_cases hk : k = id
    · subst hk
      rw [findRec, if_pos rfl] at h
      have hv : v = rcd := Option.some.inj h
      rw [← hv]
      cases hdel : v.to_delete with
      | true =>
        have habs : findRec (sweep tl) k = none := by
          rw [findRec_eq_none_iff]
          exact fun hc => hnd2.1 (keys_sweep_subset tl hc)
        simpa [sweep, List.filter_cons, hdel] using habs
      | false =>
        simp [sweep, List.filter_cons, hdel, findRec]
    · rw [findRec, if_neg hk] at h
      have htl := ih id rcd hnd2.2 h
      cases hdel : v.to_delete with
      | true => simpa [sweep, List.filter_cons, hdel] using htl
      | false => simpa [sweep, List.filter_cons, hdel, findRec, if_neg hk] using htl

theorem keys_updateRec :
    ∀ (reg : Registry) (id : String) (g : FileRecord → FileRecord),
      keys (updateRec reg id g) = keys reg := by
  intro reg
  induction reg with
  | nil => intro id g; rfl
  | cons p tl ih =>
    intro id g
    obtain ⟨k, v⟩ := p
    by_cases h : k = id
    · rw [updateRec, if_pos h, keys, List.map_cons, keys, List.map_cons]
      exact congrArg (k :: ·) (ih id g)
    · rw [updateRec, if_neg h, keys, List.map_cons, keys, List.map_cons]
      exact congrArg (k :: ·) (ih id g)

theorem findRec_updateRec :
    ∀ (reg : Registry) (id : String) (g : FileRecord → FileRecord),
      findRec (updateRec reg id g) id = (findRec reg id).map g := by
  intro reg
  induction reg with
  | nil => intro id g; rfl
  | cons p tl ih =>
    intro id g
    obtain ⟨k, v⟩ := p
    by_cases h : k = id
    · rw [updateRec, if_pos h, findRec, if_pos h, findRec, if_pos h, Option.map_some']
    · rw [updateRec, if_neg h]
      show (if k = id then some v else findRec (updateRec tl id g) id) =
        (if k = id then some v else findRec tl id).map g
      rw [if_neg h, if_neg h]
      exact ih id g

theorem updateRec_id_of_fixed :
    ∀ (reg : Registry) (id : String) (g : FileRecord → FileRecord),
      (∀ r : FileRecord, g r = r) → updateRec reg id g = reg := by
  intro reg
  induction reg with
  | nil => intro id g _; rfl
  | cons p tl ih =>
    intro id g h
    obtain ⟨k, v⟩ := p
    by_cases hk : k = id
    · rw [updateRec, if_pos hk, h v]
      exact congrArg ((k, v) :: ·) (ih id g h)
    · rw [updateRec, if_neg hk]
      exact congrArg ((k, v) :: ·) (ih id g h)

theorem fillCell_missing_pos (t : Table) (j : ℕ) (hnum : isNumericCol t j = true)
    (hpos : 0 < (numVals t j).length) :
    fillCell t j Cell.missing = Cell.num (colMean t j) := by
  show (if isNumericCol t j = true ∧ 0 < (numVals t j).length then Cell.num (colMean t j)
      else Cell.missing) = Cell.num (colMean t j)
  rw [if_pos ⟨hnum, hpos⟩]

theorem fillCell_not_numeric (t : Table) (j : ℕ) (hnum : isNumericCol t j = false) (c : Cell) :
    fillCell t j c = c := by
  cases c with
  | missing =>
    show (if isNumericCol t j = true ∧ 0 < (numVals t j).length then Cell.num (colMean t j)
        else Cell.missing) = Cell.missing
    rw [if_neg]
    rintro ⟨h1, _⟩
    rw [hnum] at h1
    exact Bool.false_ne_true h1
  | num q => rfl
  | str s => rfl

theorem map_getD_colIdx :
    ∀ (ns : List String) (r : Row), ns.Nodup → r.length = ns.length →
      ns.map (fun n => r.getD (colIdx ns n) Cell.missing) = r := by
  intro ns
  induction ns with
  | nil =>
    intro r _ hlen
    have hr : r = [] := List.length_eq_zero.mp (by simpa using hlen)
    subst hr
    rfl
  | cons n ns2 ih =>
    intro r hnd hlen
    cases r with
    | nil => simp at hlen
    | cons c r2 =>
      have hlen2 : r2.length = ns2.length := by simpa using hlen
      have hn : n ∉ ns2 := (List.nodup_cons.mp hnd).1
      rw [List.map_cons]
      have hhead : (c :: r2).getD (colIdx (n :: ns2) n) Cell.missing = c := by
        show (c :: r2).getD (if n = n then 0 else colIdx ns2 n + 1) Cell.missing = c
        rw [if_pos rfl, List.getD_cons_zero]
      rw [hhead]
      refine congrArg (c :: ·) ?_
      have htail : ∀ m ∈ ns2, (c :: r2).getD (colIdx (n :: ns2) m) Cell.missing
          = r2.getD (colIdx ns2 m) Cell.missing := by
        intro m hm
        have hmn : ¬ n = m := fun hc => hn (hc ▸ hm)
        show (c :: r2).getD (if n = m then 0 else colIdx ns2 m + 1) Cell.missing
          = r2.getD (colIdx ns2 m) Cell.missing
        rw [if_neg hmn, List.getD_cons_succ]
      rw [List.map_congr_left htail]
      exact ih r2 (List.nodup_cons.mp hnd).2 hlen2

theorem keys_append_single (reg : Registry) (id : String) (rcd : FileRecord) :
    keys (reg ++ [(id, rcd)]) = keys reg ++ [id] := by
  rw [keys, List.map_append]
  rfl

theorem nodup_keys_append (reg : Registry) (id : String) (rcd : FileRecord)
    (hnd : (keys reg).Nodup) (hmem : id ∉ keys reg) :
    (keys (reg ++ [(id, rcd)])).Nodup := by
  rw [keys_append_single, List.nodup_append]
  refine ⟨hnd, List.nodup_singleton id, ?_⟩
  intro a ha hb
  rw [List.mem_singleton] at hb
  exact hmem (hb ▸ ha)

theorem findRec_append_ne :
    ∀ (reg : Registry) (p : String × FileRecord) (id : String), id ≠ p.1 →
      findRec (reg ++ [p]) id = findRec reg id := by
  intro reg
  induction reg with
  | nil =>
    intro p id h
    obtain ⟨k, v⟩ := p
    show (if k = id then some v else findRec [] id) = findRec [] id
    rw [if_neg (fun hc => h hc.symm)]
  | cons q tl ih =>
    intro p id h
    obtain ⟨k, v⟩ := q
    show (if k = id then some v else findRec (tl ++ [p]) id)
      = if k = id then some v else findRec tl id
    by_cases hk : k = id
    · rw [if_pos hk, if_pos hk]
    · rw [if_neg hk, if_neg hk]
      exact ih p id h

/-! ## Claim theorems -/

/-- C2: `fillMissingNumeric` replaces each missing cell of every column
inferred as numeric and having at least one non-missing value (so that the
mean of the non-missing values exists) with that column's arithmetic mean,
leaves every non-numeric column untouched, and afterwards every numeric
column that had at least one non-missing value contains zero missing
values. -/
theorem fillMissingNumeric_spec (t : Table) (j : ℕ) :
    (isNumericCol t j = true → 0 < (numVals t j).length →
      ∀ i, cellAt t i j = some Cell.missing →
        cellAt (fillMissingNumeric t) i j = some (Cell.num (colMean t j))) ∧
    (isNumericCol t j = false →
      ∀ i, cellAt (fillMissingNumeric t) i j = cellAt t i j) ∧
    (isNumericCol t j = true → 0 < (numVals t j).length →
      ∀ i, cellAt (fillMissingNumeric t) i j ≠ some Cell.missing) := by
  refine ⟨?_, ?_, ?_⟩
  · intro hnum hpos i hmiss
    rw [cellAt_fill, hmiss, Option.map_some', fillCell_missing_pos t j hnum hpos]
  · intro hnum i
    rw [cellAt_fill]
    cases hc : cellAt t i j with
    | none => rfl
    | some c => rw [Option.map_some', fillCell_not_numeric t j hnum c]
  · intro hnum hpos i
    rw [cellAt_fill]
    cases hc : cellAt t i j with
    | none => simp
    | some c =>
      rw [Option.map_some']
      cases c with
      | missing =>
        rw [fillCell_missing_pos t j hnum hpos]
        simp
      | num q => simp [fillCell]
      | str s => simp [fillCell]

/-- C2 witness: on the spec's worked table, the missing `y` cell is filled
with the column mean, the filled column has no missing cell, and a
non-numeric column of `sampleT2` is untouched. -/
theorem fillMissingNumeric_spec_witness :
    cellAt (fillMissingNumeric sampleT) 0 1 = some (Cell.num (colMean sampleT 1)) ∧
    cellAt (fillMissingNumeric sampleT) 1 1 ≠ some Cell.missing ∧
    cellAt (fillMissingNumeric sampleT2) 1 0 = cellAt sampleT2 1 0 :=
  ⟨(fillMissingNumeric_spec sampleT 1).1 (by decide) (by decide) 0 (by decide),
   (fillMissingNumeric_spec sampleT 1).2.2 (by decide) (by decide) 1,
   (fillMissingNumeric_spec sampleT2 0).2.1 (by decide) 1⟩

/-- C3: `dropDuplicateRows` removes exactly the rows fully identical to some
earlier row (so the first occurrence of each distinct row is kept and no
distinct row is lost), preserves the relative order of the kept rows, and
leaves the column list unchanged. -/
theorem dropDuplicateRows_spec (t : Table) :
    (dropDuplicateRows t).colNames = t.colNames ∧
    (dropDuplicateRows t).rows = keepNotSeenBefore [] t.rows ∧
    List.Sublist (dropDuplicateRows t).rows t.rows ∧
    (∀ r : Row, r ∈ (dropDuplicateRows t).rows ↔ r ∈ t.rows) := by
  refine ⟨rfl, ?_, ?_, ?_⟩
  · exact dropDupAux_eq_keepNotSeenBefore t.rows [] [] (fun x => Iff.rfl)
  · exact dropDupAux_sublist [] t.rows
  · intro r
    show r ∈ dropDupAux [] t.rows ↔ r ∈ t.rows
    rw [mem_dropDupAux]
    simp

/-- C9: `dropDuplicateRows` is idempotent. -/
theorem dropDuplicateRows_idempotent (t : Table) :
    dropDuplicateRows (dropDuplicateRows t) = dropDuplicateRows t := by
  show Table.mk t.colNames (dropDupAux [] (dropDupAux [] t.rows)) =
    Table.mk t.colNames (dropDupAux [] t.rows)
  rw [dropDupAux_of_nodup (dropDupAux [] t.rows) [] (nodup_dropDupAux [] t.rows)
    (by intro x hx; exact List.not_mem_nil x)]

/-- C10: the cleaning operations preserve table shape and untouched data:
`dropDuplicateRows` and `fillMissingNumeric` keep the column list,
`fillMissingNumeric` keeps the row count and every row's length, and every
cell that was not missing holds the same value after the fill. -/
theorem cleaning_frame (t : Table) :
    (dropDuplicateRows t).colNames = t.colNames ∧
    (fillMissingNumeric t).colNames = t.colNames ∧
    (fillMissingNumeric t).rows.length = t.rows.length ∧
    (∀ i : ℕ, ((fillMissingNumeric t).rows[i]?).map (fun r : Row => r.length)
      = (t.rows[i]?).map (fun r : Row => r.length)) ∧
    (∀ i j, cellAt t i j ≠ some Cell.missing →
      cellAt (fillMissingNumeric t) i j = cellAt t i j) := by
  refine ⟨rfl, rfl, by simp [fillMissingNumeric], ?_, ?_⟩
  · intro i
    show ((t.rows.map (fillRow t 0))[i]?).map (fun r : Row => r.length)
      = (t.rows[i]?).map (fun r : Row => r.length)
    rw [List.getElem?_map]
    cases t.rows[i]? with
    | none => rfl
    | some r => simp [fillRow_length]
  · intro i j hmiss
    rw [cellAt_fill]
    cases hc : cellAt t i j with
    | none => rfl
    | some c =>
      rw [Option.map_some']
      cases c with
      | missing => exact absurd hc hmiss
      | num q => rfl
      | str s => rfl

/-- C10 witness: on the spec's worked table, columns are preserved, the row
count is preserved, and a cell holding `1` is unchanged by the fill. -/
theorem cleaning_frame_witness :
    (dropDuplicateRows sampleT).colNames = sampleT.colNames ∧
    (fillMissingNumeric sampleT).rows.length = sampleT.rows.length ∧
    cellAt (fillMissingNumeric sampleT) 0 0 = cellAt sampleT 0 0 :=
  ⟨(cleaning_frame sampleT).1,
   (cleaning_frame sampleT).2.2.1,
   (cleaning_frame sampleT).2.2.2.2 0 0 (by decide)⟩

/-- C8: selecting all of a table's column names in their original order is
the identity transform (tables parsed by the app are rectangular with
distinct column labels, the two hypotheses). -/
theorem selectColumns_identity (t : Table) (hnd : t.colNames.Nodup)
    (hw : ∀ r ∈ t.rows, r.length = t.colNames.length) :
    selectColumns t t.colNames = some t := by
  rw [selectColumns, if_pos (fun n hn => hn)]
  refine congrArg some ?_
  have h1 : ∀ r ∈ t.rows,
      t.colNames.map (fun n => r.getD (colIdx t.colNames n) Cell.missing) = id r := by
    intro r hr
    exact map_getD_colIdx t.colNames r hnd (hw r hr)
  rw [List.map_congr_left h1, List.map_id]

/-- C8 witness: on the spec's worked table, selecting `[x, y, z]` returns the
table unchanged. -/
theorem selectColumns_identity_witness :
    selectColumns sampleT sampleT.colNames = some sampleT :=
  selectColumns_identity sampleT (by decide) (by decide)

/-- C6: passing a column name that is not among the table's columns makes the
selection fail (pandas raises `KeyError`), and the stored table of the record
is left unchanged rather than silently projecting to the known names. -/
theorem selectColumns_unknown (t : Table) (names : List String) (n : String)
    (hn : n ∈ names) (hmem : n ∉ t.colNames) (rcd : FileRecord) :
    selectColumns t names = none ∧ selectClick rcd t names = rcd := by
  have hfail : selectColumns t names = none := by
    rw [selectColumns, if_neg]
    intro hall
    exact hmem (hall n hn)
  refine ⟨hfail, ?_⟩
  rw [selectClick, hfail]

/-- C6 witness: requesting the unknown column `w` fails and leaves the
record's table unchanged. -/
theorem selectColumns_unknown_witness :
    selectColumns sampleT ["x", "w"] = none ∧
    selectClick recA sampleT ["x", "w"] = recA :=
  selectColumns_unknown sampleT ["x", "w"] "w" (by decide) (by decide) recA

/-- C1: registry record lifecycle — registering an identity already present
is a no-op on the whole registry (the new content is ignored) and surfaces
no message; a record flagged for deletion (already, or via the Delete
button) is absent from the registry after the sweep; once the identity is
absent a fresh upload creates a record again; and registration preserves
key uniqueness, so at most one record exists per identity. -/
theorem registry_lifecycle (reg : Registry) (f : UploadedFile) (id : String)
    (rcd : FileRecord) :
    (findRec reg (fileId f) = some rcd → process_file reg f = (reg, none)) ∧
    ((keys reg).Nodup → findRec reg id = some rcd → rcd.to_delete = true →
      findRec (sweep reg) id = none ∧ id ∉ keys (sweep reg)) ∧
    ((keys reg).Nodup → findRec reg id = some rcd →
      findRec (sweep (markDeleted reg id)) id = none) ∧
    (findRec reg (fileId f) = none →
      (findRec (process_file reg f).1 (fileId f)).isSome = true) ∧
    ((keys reg).Nodup → (keys (process_file reg f).1).Nodup) := by
  refine ⟨?_, ?_, ?_, ?_, ?_⟩
  · intro h
    rw [process_file, if_pos (show (findRec reg (fileId f)).isSome = true by rw [h]; rfl)]
  · intro hnd h hdel
    have hs := findRec_sweep reg id rcd hnd h
    rw [hdel] at hs
    have hnone : findRec (sweep reg) id = none := by simpa using hs
    exact ⟨hnone, (findRec_eq_none_iff (sweep reg) id).mp hnone⟩
  · intro hnd h
    have h2 : findRec (markDeleted reg id) id = some { rcd with to_delete := true } := by
      rw [markDeleted, findRec_updateRec, h, Option.map_some']
    have hnd2 : (keys (markDeleted reg id)).Nodup := by
      rw [markDeleted, keys_updateRec]
      exact hnd
    have h3 := findRec_sweep (markDeleted reg id) id { rcd with to_delete := true } hnd2 h2
    simpa using h3
  · intro h
    rw [process_file, if_neg (show ¬ (findRec reg (fileId f)).isSome = true by rw [h]; simp)]
    cases hd : dispatchParse f with
    | ok tb =>
      show (findRec (reg ++ [(fileId f, { freshRecord f with df := some tb })])
        (fileId f)).isSome = true
      rw [findRec_append_none h]
      simp [findRec]
    | raised m =>
      show (findRec (reg ++ [(fileId f, { freshRecord f with to_delete := true })])
        (fileId f)).isSome = true
      rw [findRec_append_none h]
      simp [findRec]
  · intro hnd
    rw [process_file]
    by_cases hp : (findRec reg (fileId f)).isSome = true
    · rw [if_pos hp]
      exact hnd
    · rw [if_neg hp]
      have hnone : findRec reg (fileId f) = none := by
        cases hfr : findRec reg (fileId f) with
        | none => rfl
        | some v => exact absurd (by rw [hfr]; rfl) hp
      have hkey : fileId f ∉ keys reg := (findRec_eq_none_iff reg (fileId f)).mp hnone
      cases hd : dispatchParse f with
      | ok tb =>
        exact nodup_keys_append reg (fileId f) { freshRecord f with df := some tb } hnd hkey
      | raised m =>
        exact nodup_keys_append reg (fileId f) { freshRecord f with to_delete := true } hnd hkey

/-- C1 witness: re-registering `a.csv` is a no-op; a marked record is gone
after the sweep, also via the Delete button; a fresh upload after removal
recreates a record; keys stay distinct. -/
theorem registry_lifecycle_witness :
    process_file [("a.csv_5", recA)] fileA = ([("a.csv_5", recA)], none) ∧
    findRec (sweep [("a.csv_5", recDel)]) "a.csv_5" = none ∧
    findRec (sweep (markDeleted [("a.csv_5", recA)] "a.csv_5")) "a.csv_5" = none ∧
    (findRec (process_file [] fileA).1 (fileId fileA)).isSome = true ∧
    (keys (process_file [] fileA).1).Nodup :=
  ⟨(registry_lifecycle [("a.csv_5", recA)] fileA "a.csv_5" recA).1 (by decide),
   ((registry_lifecycle [("a.csv_5", recDel)] fileA "a.csv_5" recDel).2.1
     (by decide) (by decide) (by decide)).1,
   (registry_lifecycle [("a.csv_5", recA)] fileA "a.csv_5" recA).2.2.1
     (by decide) (by decide),
   (registry_lifecycle [] fileA "a.csv_5" recA).2.2.2.1 (by decide),
   (registry_lifecycle [] fileA "a.csv_5" recA).2.2.2.2 (by decide)⟩

/-- C5: a parse that raises (either reader) is caught per-file: the error is
surfaced as a message, the new record is marked for deletion with no table,
and every other registry entry is unchanged; `process_file` returns
normally, so nothing propagates to the top level. -/
theorem parse_failure_spec (reg : Registry) (f : UploadedFile) (m : String)
    (habs : findRec reg (fileId f) = none)
    (hfail : (strEndsWith f.name ".csv" = true ∧ f.csvParse = ParseOutcome.raised m) ∨
      (strEndsWith f.name ".csv" = false ∧ strEndsWith f.name ".xlsx" = true ∧
        f.xlsxParse = ParseOutcome.raised m)) :
    (process_file reg f).2 = some ("❌ Error loading " ++ f.name ++ ": " ++ m) ∧
    findRec (process_file reg f).1 (fileId f) =
      some { freshRecord f with to_delete := true } ∧
    (∀ id2, id2 ≠ fileId f → findRec (process_file reg f).1 id2 = findRec reg id2) := by
  have hd : dispatchParse f = ParseOutcome.raised m := by
    rcases hfail with ⟨h1, h2⟩ | ⟨h1, h2, h3⟩
    · rw [dispatchParse, if_pos h1]
      exact h2
    · rw [dispatchParse, if_neg (show ¬ strEndsWith f.name ".csv" = true by
        rw [h1]; exact Bool.false_ne_true), if_pos h2]
      exact h3
  have hproc : process_file reg f =
      (reg ++ [(fileId f, { freshRecord f with to_delete := true })],
       some ("❌ Error loading " ++ f.name ++ ": " ++ m)) := by
    rw [process_file, if_neg (show ¬ (findRec reg (fileId f)).isSome = true by
      rw [habs]; simp), hd]
  refine ⟨by rw [hproc], ?_, ?_⟩
  · rw [hproc]
    show findRec (reg ++ [(fileId f, { freshRecord f with to_delete := true })])
      (fileId f) = some { freshRecord f with to_delete := true }
    rw [findRec_append_none habs]
    simp [findRec]
  · intro id2 hne
    rw [hproc]
    show findRec (reg ++ [(fileId f, { freshRecord f with to_delete := true })]) id2
      = findRec reg id2
    exact findRec_append_ne reg (fileId f, { freshRecord f with to_delete := true }) id2 hne

/-- C5 witness: the failing `b.csv` surfaces its message, its record is
marked for deletion, and the record of `a.csv` is untouched. -/
theorem parse_failure_spec_witness :
    (process_file [("a.csv_5", recA)] fileBad).2 =
      some ("❌ Error loading " ++ fileBad.name ++ ": " ++ "boom") ∧
    findRec (process_file [("a.csv_5", recA)] fileBad).1 (fileId fileBad) =
      some { freshRecord fileBad with to_delete := true } ∧
    findRec (process_file [("a.csv_5", recA)] fileBad).1 "a.csv_5" =
      findRec [("a.csv_5", recA)] "a.csv_5" :=
  have h := parse_failure_spec [("a.csv_5", recA)] fileBad "boom" (by decide)
    (Or.inl ⟨by decide, by decide⟩)
  ⟨h.1, h.2.1, h.2.2 "a.csv_5" (by decide)⟩

/-- C4 counterexample: the claim says a file whose name ends in neither
`.csv` nor `.xlsx` is registered with no table, no error and no deletion
mark; on `notes.txt` the code instead surfaces an error message and marks
the record for deletion (the suffix dispatch leaves the local `df` unbound
and the resulting exception is caught by the parse error handler). -/
theorem unknown_suffix_counterexample :
    (process_file [] txtFile).2.isSome = true ∧
    findRec (process_file [] txtFile).1 (fileId txtFile) =
      some { freshRecord txtFile with to_delete := true } := by
  refine ⟨by decide, by decide⟩

/-- C4 amended: for every uploaded file whose name ends in neither `.csv`
nor `.xlsx`, registration creates a record with no table, surfaces an error
message, and marks the record for deletion — the unmatched suffix leaves
the local table variable unbound, raising an error caught by the same
handler as a parse failure. -/
theorem unknown_suffix_amended (reg : Registry) (f : UploadedFile)
    (h1 : strEndsWith f.name ".csv" = false) (h2 : strEndsWith f.name ".xlsx" = false)
    (habs : findRec reg (fileId f) = none) :
    (process_file reg f).2 = some ("❌ Error loading " ++ f.name ++ ": "
      ++ "local variable df referenced before assignment") ∧
    findRec (process_file reg f).1 (fileId f) =
      some { freshRecord f with to_delete := true } := by
  have hd : dispatchParse f
      = ParseOutcome.raised "local variable df referenced before assignment" := by
    rw [dispatchParse, if_neg (show ¬ strEndsWith f.name ".csv" = true by
        rw [h1]; exact Bool.false_ne_true),
      if_neg (show ¬ strEndsWith f.name ".xlsx" = true by
        rw [h2]; exact Bool.false_ne_true)]
  have hproc : process_file reg f =
      (reg ++ [(fileId f, { freshRecord f with to_delete := true })],
       some ("❌ Error loading " ++ f.name ++ ": "
         ++ "local variable df referenced before assignment")) := by
    rw [process_file, if_neg (show ¬ (findRec reg (fileId f)).isSome = true by
      rw [habs]; simp), hd]
  refine ⟨by rw [hproc], ?_⟩
  rw [hproc]
  show findRec (reg ++ [(fileId f, { freshRecord f with to_delete := true })])
    (fileId f) = some { freshRecord f with to_delete := true }
  rw [findRec_append_none habs]
  simp [findRec]

/-- C4 amended witness: the amended behavior at the concrete `notes.txt`. -/
theorem unknown_suffix_amended_witness :
    (process_file [] txtFile).2 = some ("❌ Error loading " ++ txtFile.name ++ ": "
      ++ "local variable df referenced before assignment") ∧
    findRec (process_file [] txtFile).1 (fileId txtFile) =
      some { freshRecord txtFile with to_delete := true } :=
  unknown_suffix_amended [] txtFile (by decide) (by decide) (by decide)

/-- C7: an export whose serialization raises is caught and reported as a
message, the record (and so its current table) is completely unchanged, and
the record survives the cycle's sweep, staying in the registry. -/
theorem export_failure_spec (ser : ConvFormat → Table → SerializeOutcome)
    (fmt : ConvFormat) (rcd : FileRecord) (t : Table) (m : String)
    (reg : Registry) (id : String)
    (hser : ser fmt t = SerializeOutcome.raised m) :
    convertClick ser fmt rcd t = (rcd, some ("⚠️ Conversion failed: " ++ m)) ∧
    ((keys reg).Nodup → findRec reg id = some rcd → rcd.to_delete = false →
      findRec (sweep (updateRec reg id (fun r => (convertClick ser fmt r t).1))) id
        = some rcd) := by
  have hclick : ∀ r : FileRecord,
      convertClick ser fmt r t = (r, some ("⚠️ Conversion failed: " ++ m)) := by
    intro r
    rw [convertClick, hser]
  refine ⟨hclick rcd, ?_⟩
  intro hnd hfind hdel
  have hupd : updateRec reg id (fun r => (convertClick ser fmt r t).1) = reg :=
    updateRec_id_of_fixed reg id _ (fun r => by rw [hclick r])
  rw [hupd]
  have hs := findRec_sweep reg id rcd hnd hfind
  rw [hdel] at hs
  simpa using hs

/-- C7 witness: with a serializer that always raises, converting `a.csv`
reports the failure, leaves its record as it was, and the record is still
found after the sweep. -/
theorem export_failure_spec_witness :
    convertClick serFail ConvFormat.csv recA sampleT =
      (recA, some ("⚠️ Conversion failed: " ++ "disk full")) ∧
    findRec (sweep (updateRec [("a.csv_5", recA)] "a.csv_5"
      (fun r => (convertClick serFail ConvFormat.csv r sampleT).1))) "a.csv_5"
      = some recA :=
  have h := export_failure_spec serFail ConvFormat.csv recA sampleT "disk full"
    [("a.csv_5", recA)] "a.csv_5" (by decide)
  ⟨h.1, h.2 (by decide) (by decide) (by decide)⟩
